import Mathlib

/-!
Verification of the KipDB write-ahead-log subsystem (`src/kernel/lsm/log.rs`).

The `LogLoader` itself is translated directly from the Rust source.  Its
external collaborators (the segment I/O factory, the command codec, the
generation sequencer and `sorted_gen_list`) live outside the excerpted
source, so they are modelled from the specification: the directory is an
association list from generation identifiers to decoded segment contents,
the codec is the identity on command sequences (the spec's round-trip
property), the buffered writer holds appended commands until `flush`
materialises them in the directory, and the sequencer's output is passed
to `switch` as an explicit argument.
-/

namespace KipDB

/-- Modelled from the spec: a command record (`CommandData`, defined outside
the excerpted source) is a key, an operation kind (set / remove) and an
optional value. -/
inductive CommandData where
  | set (key value : List Nat)
  | remove (key : List Nat)
deriving DecidableEq

/-- Reserved generation slot of the recovery marker file
(`const SUCCESS_FS_GEN: i64 = 000_000_000`). -/
def SUCCESS_FS_GEN : Int := 0

/-- Modelled from the spec: the log directory seen through the segment I/O
factory, an association of generation identifiers to the decoded command
sequence stored in that generation's file.  The command codec is the
identity on command sequences, by the spec's round-trip property. -/
abbrev FS := List (Int × List CommandData)

/-- Modelled from the spec: file lookup by generation in the directory. -/
def fsFind : FS → Int → Option (List CommandData)
  | [], _ => none
  | (k, v) :: rest, g => if g = k then some v else fsFind rest g

/-- Modelled from the spec: `IoFactory::has_gen`, existence test for a
generation's file. -/
def fsHasGen (fs : FS) (g : Int) : Bool :=
  (fsFind fs g).isSome

/-- Modelled from the spec: the decoded contents of an existing file
(`IoFactory::reader` in memory-mapped mode followed by
`CommandPackage::from_read_to_unpack_vec`). -/
def fsRead (fs : FS) (g : Int) : List CommandData :=
  (fsFind fs g).getD []

/-- Modelled from the spec: removal of every directory entry for a
generation. -/
def fsRemove : FS → Int → FS
  | [], _ => []
  | (k, v) :: rest, g => if k = g then fsRemove rest g else (k, v) :: fsRemove rest g

/-- Modelled from the spec: writing a file's full contents. -/
def fsWrite (fs : FS) (g : Int) (content : List CommandData) : FS :=
  (g, content) :: fsRemove fs g

/-- Modelled from the spec: `IoFactory::create_fs`, creation of an empty
marker file. -/
def fsCreate (fs : FS) (g : Int) : FS :=
  fsWrite fs g []

/-- Modelled from the spec: `IoFactory::clean`, deletion of a generation's
file; deleting a file that does not exist is an I/O failure. -/
def fsClean (fs : FS) (g : Int) : Except Unit FS :=
  if fsHasGen fs g then .ok (fsRemove fs g) else .error ()

/-- Modelled from the spec: a buffered writer flushing appends its buffered
commands to its generation's file, creating the file if absent. -/
def fsAppend (fs : FS) (g : Int) (cmds : List CommandData) : FS :=
  fsWrite fs g (fsRead fs g ++ cmds)

/-- Generations present in the directory. -/
def fsKeys (fs : FS) : List Int :=
  fs.map Prod.fst

/-- Modelled from the spec: `sorted_gen_list` scans the directory and
returns the existing generations sorted oldest-to-newest. -/
def sorted_gen_list (fs : FS) : List Int :=
  List.insertionSort (· ≤ ·) (fsKeys fs)

/-- Well-formedness of a directory: file names are unique. -/
def FSwf (fs : FS) : Prop :=
  (fsKeys fs).Nodup

/-- Modelled from the spec: the configuration fields the loader consumes
(the rotation / retention threshold `wal_threshold`). -/
structure Config where
  wal_threshold : Nat
deriving DecidableEq

/-- Modelled from the spec: the active buffered writer — its generation and
the commands appended but not yet flushed. -/
structure Writer where
  gen : Int
  buf : List CommandData
deriving DecidableEq

/-- Lock-protected mutable state of the loader (`struct Inner`), with
`vec_gen` the live-generation deque, front first. -/
structure Inner where
  current_gen : Int
  writer : Writer
  vec_gen : List Int
deriving DecidableEq

/-- The log loader (`struct LogLoader`); the factory's directory state is
passed explicitly alongside it. -/
structure LogLoader where
  inner : Inner
  check_success : Bool
deriving DecidableEq

/-- A loader together with the directory it operates on. -/
structure SysState where
  fs : FS
  loader : LogLoader
deriving DecidableEq

/-- Translation of `LogLoader::reload_`: scan the directory, take the most
recent generation (default 0), open a buffered writer for it, and return
the loader plus that generation. -/
def LogLoader.reload_ (fs : FS) : LogLoader × Int :=
  let vec_gen := sorted_gen_list fs
  let last_gen := vec_gen.getLast?.getD 0
  (⟨⟨last_gen, ⟨last_gen, []⟩, vec_gen⟩, false⟩, last_gen)

/-- Translation of `LogLoader::reload`: the plain reload, dropping the
returned generation. -/
def LogLoader.reload (fs : FS) : LogLoader :=
  (LogLoader.reload_ fs).1

/-- Translation of `LogLoader::check_and_reload`: if the recovery marker is
present, decode the most recent generation's segment for replay; otherwise
create the marker and return no payload. -/
def LogLoader.check_and_reload (fs : FS) (last_gen : Int) :
    Except Unit (FS × Option (List CommandData)) :=
  if fsHasGen fs SUCCESS_FS_GEN then
    match fsFind fs last_gen with
    | some content => .ok (fs, some content)
    | none => .error ()
  else .ok (fsCreate fs SUCCESS_FS_GEN, none)

/-- Translation of `LogLoader::reload_with_check`: plain reload, mark the
loader clean-shutdown eligible, then evaluate the recovery marker. -/
def LogLoader.reload_with_check (fs : FS) :
    Except Unit (LogLoader × FS × Option (List CommandData)) :=
  let (loader0, last_gen) := LogLoader.reload_ fs
  let loader : LogLoader := { loader0 with check_success := true }
  match LogLoader.check_and_reload fs last_gen with
  | .ok (fs1, option_data) => .ok (loader, fs1, option_data)
  | .error e => .error e

/-- Translation of `LogLoader::log`: append one command through the active
writer (buffered, so it reaches the writer's buffer). -/
def LogLoader.log (l : LogLoader) (cmd : CommandData) : LogLoader :=
  { l with inner := { l.inner with
      writer := { l.inner.writer with buf := l.inner.writer.buf ++ [cmd] } } }

/-- Translation of `LogLoader::log_batch`: append a batch of commands
through the active writer. -/
def LogLoader.log_batch (l : LogLoader) (cmds : List CommandData) : LogLoader :=
  { l with inner := { l.inner with
      writer := { l.inner.writer with buf := l.inner.writer.buf ++ cmds } } }

/-- Flushing a writer to the directory. -/
def Writer.flushTo (w : Writer) (fs : FS) : FS :=
  fsAppend fs w.gen w.buf

/-- Translation of `LogLoader::flush`: force the active writer's buffered
commands to stable storage. -/
def SysState.flush (st : SysState) : SysState :=
  ⟨st.loader.inner.writer.flushTo st.fs,
   { st.loader with inner := { st.loader.inner with
       writer := { st.loader.inner.writer with buf := [] } } }⟩

/-- Translation of `LogLoader::last_gen`: the back of the live-generation
deque. -/
def LogLoader.last_gen (l : LogLoader) : Option Int :=
  l.inner.vec_gen.getLast?

/-- Translation of `LogLoader::load`: if the generation's file exists,
decode it in full; otherwise return no payload. -/
def SysState.load (st : SysState) (g : Int) : Option (List CommandData) :=
  if fsHasGen st.fs g then some (fsRead st.fs g) else none

/-- Translation of `LogLoader::load_last`: `load` at the most recent live
generation, or nothing when the list is empty. -/
def SysState.load_last (st : SysState) : Option (List CommandData) :=
  match st.loader.last_gen with
  | some gen => st.load gen
  | none => none

/-- Translation of the eviction loop inside `LogLoader::switch`: pop the
front of the deque `n` times, deleting each popped generation's file. -/
def evictLoop (fs : FS) (vec : List Int) : Nat → Except Unit (FS × List Int)
  | 0 => .ok (fs, vec)
  | Nat.succ n =>
    match vec with
    | [] => evictLoop fs [] n
    | g :: rest =>
      match fsClean fs g with
      | .ok fs1 => evictLoop fs1 rest n
      | .error e => .error e

/-- Translation of `LogLoader::switch`: flush the outgoing writer, evict the
oldest half of the live generations once the retention threshold is
reached, push the freshly allocated generation, install the new writer, and
return the pre-rotation generation.  The sequencer's freshly allocated
generation is the explicit argument `next_gen`. -/
def SysState.switch (st : SysState) (cfg : Config) (next_gen : Int) :
    Except Unit (SysState × Int) :=
  let inner := st.loader.inner
  let current_gen := inner.current_gen
  let fs1 := inner.writer.flushTo st.fs
  let vec_len := inner.vec_gen.length
  match (if cfg.wal_threshold ≤ vec_len then
          evictLoop fs1 inner.vec_gen (vec_len / 2)
         else .ok (fs1, inner.vec_gen)) with
  | .error e => .error e
  | .ok (fs2, vec2) =>
    .ok (⟨fs2, { st.loader with
            inner := ⟨next_gen, ⟨next_gen, []⟩, vec2 ++ [next_gen]⟩ }⟩,
         current_gen)

/-- Translation of `impl Drop for LogLoader`: on final release, a
clean-shutdown-eligible loader deletes the recovery marker's file; a
deletion failure is logged and swallowed, and a plain-reload loader does
nothing. -/
def SysState.dropLoader (st : SysState) : FS :=
  if st.loader.check_success then
    match fsClean st.fs SUCCESS_FS_GEN with
    | .ok fs1 => fs1
    | .error _ => st.fs
  else st.fs

/-- Engine-facing operations on a loader, used to describe runs. -/
inductive Op where
  | logOp (cmd : CommandData)
  | logBatchOp (cmds : List CommandData)
  | flushOp
  | switchOp (next_gen : Int)
  | loadOp (g : Int)
  | loadLastOp
  | lastGenOp
deriving DecidableEq

/-- One engine-facing operation applied to a state; `load`, `load_last` and
`last_gen` only read under the shared lock and return values, leaving the
state as is. -/
def step (cfg : Config) (st : SysState) : Op → Except Unit SysState
  | .logOp c => .ok ⟨st.fs, st.loader.log c⟩
  | .logBatchOp cs => .ok ⟨st.fs, st.loader.log_batch cs⟩
  | .flushOp => .ok st.flush
  | .switchOp g => (st.switch cfg g).map Prod.fst
  | .loadOp _ => .ok st
  | .loadLastOp => .ok st
  | .lastGenOp => .ok st

/-- A sequence of operations applied in order. -/
def run (cfg : Config) (st : SysState) : List Op → Except Unit SysState
  | [] => .ok st
  | op :: ops =>
    match step cfg st op with
    | .ok st1 => run cfg st1 ops
    | .error e => .error e

/-- Freshness of the sequencer along a run: every generation it hands to a
`switch` is strictly greater than every generation already in the live
list. -/
def freshOk (st : SysState) : Op → Bool
  | .switchOp g => st.loader.inner.vec_gen.all (fun x => decide (x < g))
  | _ => true

/-- Freshness of the sequencer along a whole run. -/
def freshRun (cfg : Config) (st : SysState) : List Op → Bool
  | [] => true
  | op :: ops =>
    freshOk st op &&
      (match step cfg st op with
       | .ok st1 => freshRun cfg st1 ops
       | .error _ => true)

/-- An operation list consisting only of appends (`log` / `log_batch`). -/
def appendOnly (ops : List Op) : Bool :=
  ops.all fun op =>
    match op with
    | .logOp _ => true
    | .logBatchOp _ => true
    | _ => false

/-- Commands appended by an operation list, in append order. -/
def cmdsOf (ops : List Op) : List CommandData :=
  ops.flatMap fun op =>
    match op with
    | .logOp c => [c]
    | .logBatchOp cs => cs
    | _ => []

/-- The state right after a plain reload over a directory. -/
def reloadState (fs : FS) : SysState :=
  ⟨fs, LogLoader.reload fs⟩

/-! ## Basic directory lemmas -/

theorem fsFind_fsRemove (fs : FS) (k g : Int) :
    fsFind (fsRemove fs k) g = if g = k then none else fsFind fs g := by
  induction fs with
  | nil => simp [fsRemove, fsFind]
  | cons p rest ih =>
    obtain ⟨k1, v1⟩ := p
    by_cases h1 : k1 = k
    · subst h1
      rw [show fsRemove ((k1, v1) :: rest) k1 = fsRemove rest k1 from by simp [fsRemove], ih]
      by_cases hg : g = k1 <;> simp [fsFind, hg]
    · rw [show fsRemove ((k1, v1) :: rest) k = (k1, v1) :: fsRemove rest k from by
        simp [fsRemove, h1]]
      by_cases hg1 : g = k1
      · have hgk : ¬ g = k := by rw [hg1]; exact h1
        simp [fsFind, hg1, hgk, h1]
      · simp [fsFind, hg1, ih]

theorem fsFind_fsWrite (fs : FS) (k g : Int) (c : List CommandData) :
    fsFind (fsWrite fs k c) g = if g = k then some c else fsFind fs g := by
  by_cases h : g = k <;> simp [fsWrite, fsFind, fsFind_fsRemove, h]

theorem fsFind_fsAppend (fs : FS) (k g : Int) (cmds : List CommandData) :
    fsFind (fsAppend fs k cmds) g =
      if g = k then some (fsRead fs k ++ cmds) else fsFind fs g := by
  simp [fsAppend, fsFind_fsWrite]

theorem fsRemove_of_not_has (fs : FS) (k : Int) (h : fsHasGen fs k = false) :
    fsRemove fs k = fs := by
  induction fs with
  | nil => simp [fsRemove]
  | cons p rest ih =>
    obtain ⟨k1, v1⟩ := p
    by_cases h1 : k = k1
    · subst h1
      simp [fsHasGen, fsFind] at h
    · simp only [fsHasGen, fsFind, if_neg h1] at h
      simp [fsRemove, Ne.symm h1, ih h]

theorem fsFind_eq_none_iff (fs : FS) (g : Int) :
    fsFind fs g = none ↔ g ∉ fsKeys fs := by
  induction fs with
  | nil => simp [fsFind, fsKeys]
  | cons p rest ih =>
    obtain ⟨k1, v1⟩ := p
    by_cases h1 : g = k1 <;> simp [fsFind, fsKeys, h1, ih] at *

theorem fsHasGen_iff_mem (fs : FS) (g : Int) :
    fsHasGen fs g = true ↔ g ∈ fsKeys fs := by
  rw [fsHasGen, Option.isSome_iff_ne_none, ne_eq, fsFind_eq_none_iff]
  tauto

theorem fsFind_flushTo (w : Writer) (fs : FS) (g : Int) :
    fsFind (w.flushTo fs) g =
      if g = w.gen then some (fsRead fs w.gen ++ w.buf) else fsFind fs g := by
  simp [Writer.flushTo, fsFind_fsAppend]

/-! ## Eviction loop characterization -/

theorem evictLoop_spec (n : Nat) :
    ∀ (fs : FS) (vec : List Int),
      (vec.take n).Nodup →
      (∀ g ∈ vec.take n, fsHasGen fs g = true) →
      ∃ fs1, evictLoop fs vec n = .ok (fs1, vec.drop n) ∧
        ∀ g, fsFind fs1 g = if g ∈ vec.take n then none else fsFind fs g := by
  induction n with
  | zero =>
    intro fs vec _ _
    exact ⟨fs, rfl, by simp⟩
  | succ n ih =>
    intro fs vec hnd hex
    match vec with
    | [] =>
      obtain ⟨fs1, h1, h2⟩ := ih fs [] (by simp) (by simp)
      refine ⟨fs1, ?_, ?_⟩
      · simpa [evictLoop] using h1
      · simpa using h2
    | g :: rest =>
      have hg : fsHasGen fs g = true := hex g (by simp)
      have htake : (g :: rest).take (n + 1) = g :: rest.take n := rfl
      rw [htake] at hnd hex
      have hgmem : g ∉ rest.take n := (List.nodup_cons.mp hnd).1
      obtain ⟨fs1, h1, h2⟩ := ih (fsRemove fs g) rest (List.nodup_cons.mp hnd).2
        (by
          intro x hx
          have hxg : x ≠ g := fun hh => hgmem (hh ▸ hx)
          have := hex x (List.mem_cons_of_mem _ hx)
          simpa [fsHasGen, fsFind_fsRemove, hxg] using this)
      refine ⟨fs1, ?_, ?_⟩
      · simpa [evictLoop, fsClean, hg] using h1
      · intro y
        rw [h2 y]
        by_cases hy : y = g
        · simp [hy, fsFind_fsRemove, hgmem]
        · by_cases hy2 : y ∈ rest.take n <;>
            simp [hy, hy2, fsFind_fsRemove]

/-! ## Rotation characterization -/

/-- Number of generations the retention policy evicts at a rotation, as a
function of the live-list length before the new generation is appended. -/
def evictCount (cfg : Config) (len : Nat) : Nat :=
  if cfg.wal_threshold ≤ len then len / 2 else 0

theorem evictCount_le_half (cfg : Config) (len : Nat) :
    evictCount cfg len ≤ len / 2 := by
  rw [evictCount]
  split <;> omega

theorem switch_spec (st : SysState) (cfg : Config) (next_gen : Int)
    (hnd : (st.loader.inner.vec_gen.take (st.loader.inner.vec_gen.length / 2)).Nodup)
    (hex : ∀ g ∈ st.loader.inner.vec_gen.take (st.loader.inner.vec_gen.length / 2),
        g = st.loader.inner.writer.gen ∨ fsHasGen st.fs g = true) :
    ∃ fs2,
      st.switch cfg next_gen = .ok
        (⟨fs2, { st.loader with inner :=
           ⟨next_gen, ⟨next_gen, []⟩,
            st.loader.inner.vec_gen.drop (evictCount cfg st.loader.inner.vec_gen.length)
              ++ [next_gen]⟩ }⟩,
         st.loader.inner.current_gen) ∧
      ∀ g, fsFind fs2 g =
        if g ∈ st.loader.inner.vec_gen.take (evictCount cfg st.loader.inner.vec_gen.length)
        then none else fsFind (st.loader.inner.writer.flushTo st.fs) g := by
  by_cases hthr : cfg.wal_threshold ≤ st.loader.inner.vec_gen.length
  · obtain ⟨fs2, h1, h2⟩ := evictLoop_spec (st.loader.inner.vec_gen.length / 2)
      (st.loader.inner.writer.flushTo st.fs) st.loader.inner.vec_gen hnd
      (by
        intro g hg
        rcases hex g hg with h | h
        · simp [fsHasGen, fsFind_flushTo, h]
        · by_cases hgw : g = st.loader.inner.writer.gen
          · simp [fsHasGen, fsFind_flushTo, hgw]
          · simpa [fsHasGen, fsFind_flushTo, hgw] using h)
    refine ⟨fs2, ?_, ?_⟩
    · simp only [SysState.switch, if_pos hthr, h1, evictCount]
    · intro g
      simpa [evictCount, hthr] using h2 g
  · refine ⟨st.loader.inner.writer.flushTo st.fs, ?_, ?_⟩
    · simp [SysState.switch, if_neg hthr, evictCount, hthr]
    · intro g
      simp [evictCount, hthr]

/-! ## Run lemmas -/

theorem run_split (cfg : Config) (l1 l2 : List Op) :
    ∀ st : SysState, run cfg st (l1 ++ l2) =
      match run cfg st l1 with
      | .ok st1 => run cfg st1 l2
      | .error e => .error e := by
  induction l1 with
  | nil => intro st; simp [run]
  | cons op rest ih =>
    intro st
    rw [List.cons_append, run, run]
    match step cfg st op with
    | .ok st1 => exact ih st1
    | .error e => rfl

theorem run_appendOnly (cfg : Config) (ops : List Op) :
    ∀ st : SysState, appendOnly ops = true →
      run cfg st ops = .ok ⟨st.fs,
        { st.loader with inner := { st.loader.inner with
            writer := { st.loader.inner.writer with
              buf := st.loader.inner.writer.buf ++ cmdsOf ops } } }⟩ := by
  induction ops with
  | nil => intro st _; simp [run, cmdsOf]
  | cons op rest ih =>
    intro st happ
    cases op with
    | logOp c =>
      have h2 : appendOnly rest = true := by
        simpa [appendOnly] using happ
      rw [run]
      simp only [step]
      rw [ih _ h2]
      simp [LogLoader.log, cmdsOf, List.flatMap_cons]
    | logBatchOp cs =>
      have h2 : appendOnly rest = true := by
        simpa [appendOnly] using happ
      rw [run]
      simp only [step]
      rw [ih _ h2]
      simp [LogLoader.log_batch, cmdsOf, List.flatMap_cons]
    | flushOp => simp [appendOnly] at happ
    | switchOp g => simp [appendOnly] at happ
    | loadOp g => simp [appendOnly] at happ
    | loadLastOp => simp [appendOnly] at happ
    | lastGenOp => simp [appendOnly] at happ

/-! ## Sample data for concrete instantiations -/

/-- Sample command used in concrete instantiations. -/
def data1 : CommandData := .set [1] [10]

/-- Sample command used in concrete instantiations. -/
def data2 : CommandData := .set [2] [20]

/-! ## C1 -/

/-- C1: for every sequence of log / log_batch calls followed by a flush and
a switch on a loader whose active segment is fresh (empty buffer and no
file yet, as after reloading an empty directory or right after a
rotation), the switch returns the generation that was active before the
call, and on a loader freshly reconstructed over the resulting directory,
load applied to that returned generation returns Some of exactly the
commands previously appended, in append order. -/
theorem log_flush_switch_roundtrip (cfg : Config) (ops : List Op) (next_gen : Int)
    (st : SysState)
    (happ : appendOnly ops = true)
    (hbuf : st.loader.inner.writer.buf = [])
    (hwgen : st.loader.inner.writer.gen = st.loader.inner.current_gen)
    (hseg : fsHasGen st.fs st.loader.inner.current_gen = false)
    (hnd : (st.loader.inner.vec_gen.take (st.loader.inner.vec_gen.length / 2)).Nodup)
    (hex : ∀ g ∈ st.loader.inner.vec_gen.take (st.loader.inner.vec_gen.length / 2),
        fsHasGen st.fs g = true)
    (hcur : st.loader.inner.current_gen ∉
        st.loader.inner.vec_gen.take (st.loader.inner.vec_gen.length / 2)) :
    ∃ st1 st2, run cfg st (ops ++ [Op.flushOp]) = .ok st1 ∧
      st1.switch cfg next_gen = .ok (st2, st.loader.inner.current_gen) ∧
      (reloadState st2.fs).load st.loader.inner.current_gen = some (cmdsOf ops) := by
  have hfind_none : fsFind st.fs st.loader.inner.current_gen = none := by
    cases hopt : fsFind st.fs st.loader.inner.current_gen with
    | none => rfl
    | some v => simp [fsHasGen, hopt] at hseg
  have hrun : run cfg st (ops ++ [Op.flushOp]) = .ok
      ⟨fsAppend st.fs st.loader.inner.writer.gen (cmdsOf ops),
       { st.loader with inner := { st.loader.inner with
           writer := { st.loader.inner.writer with buf := [] } } }⟩ := by
    rw [run_split, run_appendOnly cfg ops st happ]
    simp [run, step, SysState.flush, Writer.flushTo, hbuf]
  obtain ⟨fs2, hsw, hfind⟩ := switch_spec
    ⟨fsAppend st.fs st.loader.inner.writer.gen (cmdsOf ops),
     { st.loader with inner := { st.loader.inner with
         writer := { st.loader.inner.writer with buf := [] } } }⟩ cfg next_gen
    (by simpa using hnd)
    (by
      intro g hg
      by_cases hgw : g = st.loader.inner.writer.gen
      · exact Or.inl hgw
      · refine Or.inr ?_
        have := hex g (by simpa using hg)
        simpa [fsHasGen, fsFind_fsAppend, hgw] using this)
  refine ⟨_, _, hrun, hsw, ?_⟩
  have hnotmem : st.loader.inner.current_gen ∉
      st.loader.inner.vec_gen.take
        (evictCount cfg st.loader.inner.vec_gen.length) := by
    intro hmem
    apply hcur
    have hle := evictCount_le_half cfg st.loader.inner.vec_gen.length
    have heq : st.loader.inner.vec_gen.take (evictCount cfg st.loader.inner.vec_gen.length) =
        (st.loader.inner.vec_gen.take (st.loader.inner.vec_gen.length / 2)).take
          (evictCount cfg st.loader.inner.vec_gen.length) := by
      rw [List.take_take, min_eq_left hle]
    rw [heq] at hmem
    exact List.take_subset _ _ hmem
  have hc : fsFind fs2 st.loader.inner.current_gen = some (cmdsOf ops) := by
    rw [hfind, if_neg (by simpa using hnotmem), fsFind_flushTo]
    simp [hwgen, fsRead, fsFind_fsAppend, hfind_none]
  simp [reloadState, SysState.load, fsHasGen, fsRead, hc]

/-- Witness for C1 at a concrete input: two appends on a freshly reloaded
empty directory, then flush and switch. -/
theorem log_flush_switch_roundtrip_witness :
    ∃ st1 st2,
      run ⟨0⟩ (reloadState []) ([Op.logOp data1, Op.logOp data2] ++ [Op.flushOp]) = .ok st1 ∧
      st1.switch ⟨0⟩ 1 = .ok (st2, 0) ∧
      (reloadState st2.fs).load 0 = some [data1, data2] :=
  log_flush_switch_roundtrip ⟨0⟩ [Op.logOp data1, Op.logOp data2] 1 (reloadState [])
    (by decide) (by decide) (by decide) (by decide) (by decide) (by decide) (by decide)

/-! ## C2 -/

/-- C2: starting a loader via checked reload on an empty directory, then
appending records and flushing, a second checked reload against the same
directory without the first loader's teardown returns the full appended
command sequence as its recovery payload; a third checked reload performed
after the second loader tears down cleanly returns None as its recovery
payload. -/
theorem recovery_protocol (cfg : Config) (ops : List Op)
    (happ : appendOnly ops = true) :
    ∃ ld1 st1 ld2 ld3,
      LogLoader.reload_with_check [] = .ok (ld1, [(SUCCESS_FS_GEN, [])], none) ∧
      run cfg ⟨[(SUCCESS_FS_GEN, [])], ld1⟩ (ops ++ [Op.flushOp]) = .ok st1 ∧
      LogLoader.reload_with_check st1.fs = .ok (ld2, st1.fs, some (cmdsOf ops)) ∧
      SysState.dropLoader ⟨st1.fs, ld2⟩ = [] ∧
      LogLoader.reload_with_check (SysState.dropLoader ⟨st1.fs, ld2⟩) =
        .ok (ld3, [(SUCCESS_FS_GEN, [])], none) := by
  have h1 : LogLoader.reload_with_check [] =
      .ok (⟨⟨0, ⟨0, []⟩, []⟩, true⟩, [(SUCCESS_FS_GEN, [])], none) := by
    simp [LogLoader.reload_with_check, LogLoader.reload_, LogLoader.check_and_reload,
      sorted_gen_list, fsKeys, fsHasGen, fsFind, fsCreate, fsWrite, fsRemove, SUCCESS_FS_GEN]
  have hrun : run cfg ⟨[(SUCCESS_FS_GEN, [])], ⟨⟨0, ⟨0, []⟩, []⟩, true⟩⟩
      (ops ++ [Op.flushOp]) = .ok ⟨[(SUCCESS_FS_GEN, cmdsOf ops)], ⟨⟨0, ⟨0, []⟩, []⟩, true⟩⟩ := by
    rw [run_split,
      run_appendOnly cfg ops ⟨[(SUCCESS_FS_GEN, [])], ⟨⟨0, ⟨0, []⟩, []⟩, true⟩⟩ happ]
    simp [run, step, SysState.flush, Writer.flushTo, fsAppend, fsWrite, fsRead, fsFind,
      fsRemove, SUCCESS_FS_GEN]
  have h2 : LogLoader.reload_with_check [(SUCCESS_FS_GEN, cmdsOf ops)] =
      .ok (⟨⟨0, ⟨0, []⟩, [0]⟩, true⟩, [(SUCCESS_FS_GEN, cmdsOf ops)], some (cmdsOf ops)) := by
    simp [LogLoader.reload_with_check, LogLoader.reload_, LogLoader.check_and_reload,
      sorted_gen_list, fsKeys, fsHasGen, fsFind, SUCCESS_FS_GEN,
      List.insertionSort, List.orderedInsert]
  have h3 : SysState.dropLoader ⟨[(SUCCESS_FS_GEN, cmdsOf ops)], ⟨⟨0, ⟨0, []⟩, [0]⟩, true⟩⟩ =
      [] := by
    simp [SysState.dropLoader, fsClean, fsHasGen, fsFind, fsRemove, SUCCESS_FS_GEN]
  refine ⟨⟨⟨0, ⟨0, []⟩, []⟩, true⟩,
    ⟨[(SUCCESS_FS_GEN, cmdsOf ops)], ⟨⟨0, ⟨0, []⟩, []⟩, true⟩⟩,
    ⟨⟨0, ⟨0, []⟩, [0]⟩, true⟩, ⟨⟨0, ⟨0, []⟩, []⟩, true⟩, h1, hrun, h2, h3, ?_⟩
  rw [h3]
  exact h1

/-- Witness for C2 at a concrete input: appending two commands. -/
theorem recovery_protocol_witness :
    ∃ ld1 st1 ld2 ld3,
      LogLoader.reload_with_check [] = .ok (ld1, [(SUCCESS_FS_GEN, [])], none) ∧
      run ⟨0⟩ ⟨[(SUCCESS_FS_GEN, [])], ld1⟩
        ([Op.logOp data1, Op.logOp data2] ++ [Op.flushOp]) = .ok st1 ∧
      LogLoader.reload_with_check st1.fs = .ok (ld2, st1.fs, some [data1, data2]) ∧
      SysState.dropLoader ⟨st1.fs, ld2⟩ = [] ∧
      LogLoader.reload_with_check (SysState.dropLoader ⟨st1.fs, ld2⟩) =
        .ok (ld3, [(SUCCESS_FS_GEN, [])], none) :=
  recovery_protocol ⟨0⟩ [Op.logOp data1, Op.logOp data2] (by decide)

/-! ## C3 -/

/-- C3: for every checked reload where the recovery marker file is absent
when checked, the marker is created (it is present in the resulting
directory) and None is returned as the recovery payload; instantiated at
the empty directory this is the very first checked reload, which returns
None. -/
theorem check_creates_marker (fs : FS)
    (habs : fsHasGen fs SUCCESS_FS_GEN = false) :
    LogLoader.reload_with_check fs =
      .ok ({ LogLoader.reload fs with check_success := true },
           fsCreate fs SUCCESS_FS_GEN, none) ∧
    fsHasGen (fsCreate fs SUCCESS_FS_GEN) SUCCESS_FS_GEN = true := by
  constructor
  · simp [LogLoader.reload_with_check, LogLoader.check_and_reload, habs,
      LogLoader.reload]
  · simp [fsCreate, fsWrite, fsHasGen, fsFind]

/-- Witness for C3: the very first checked reload against a directory with
no prior log segments creates the marker and returns None. -/
theorem check_creates_marker_witness :
    LogLoader.reload_with_check [] =
      .ok ({ LogLoader.reload ([] : FS) with check_success := true },
           fsCreate [] SUCCESS_FS_GEN, none) ∧
    fsHasGen (fsCreate [] SUCCESS_FS_GEN) SUCCESS_FS_GEN = true :=
  check_creates_marker [] (by decide)

/-! ## C4 -/

/-- C4: at every switch, if the live-generation list's length (measured
before the new generation is appended) has reached or exceeded the
configured retention threshold, exactly floor(length / 2) generations are
removed from the front of the list and each removed generation's file is
deleted, so those generations are no longer retrievable via load while
every newer retained generation remains retrievable; if the length is
below the threshold, no generation is evicted. -/
theorem switch_retention (st : SysState) (cfg : Config) (next_gen : Int)
    (hnd : st.loader.inner.vec_gen.Nodup)
    (hex : ∀ g ∈ st.loader.inner.vec_gen, fsHasGen st.fs g = true) :
    (cfg.wal_threshold ≤ st.loader.inner.vec_gen.length →
      ∃ st2, st.switch cfg next_gen = .ok (st2, st.loader.inner.current_gen) ∧
        st2.loader.inner.vec_gen =
          st.loader.inner.vec_gen.drop (st.loader.inner.vec_gen.length / 2)
            ++ [next_gen] ∧
        (∀ g ∈ st.loader.inner.vec_gen.take (st.loader.inner.vec_gen.length / 2),
          st2.load g = none) ∧
        (∀ g ∈ st.loader.inner.vec_gen.drop (st.loader.inner.vec_gen.length / 2),
          (st2.load g).isSome = true)) ∧
    (st.loader.inner.vec_gen.length < cfg.wal_threshold →
      ∃ st2, st.switch cfg next_gen = .ok (st2, st.loader.inner.current_gen) ∧
        st2.loader.inner.vec_gen = st.loader.inner.vec_gen ++ [next_gen] ∧
        (∀ g ∈ st.loader.inner.vec_gen, (st2.load g).isSome = true) ∧
        (∀ g, fsHasGen st.fs g = true → fsHasGen st2.fs g = true)) := by
  have hndt : (st.loader.inner.vec_gen.take
      (st.loader.inner.vec_gen.length / 2)).Nodup :=
    hnd.sublist (List.take_sublist _ _)
  obtain ⟨fs2, hsw, hfind⟩ := switch_spec st cfg next_gen hndt
    (fun g hg => Or.inr (hex g (List.take_subset _ _ hg)))
  have hflush : ∀ g, fsHasGen st.fs g = true →
      (fsFind (st.loader.inner.writer.flushTo st.fs) g).isSome = true := by
    intro g hg
    by_cases hgw : g = st.loader.inner.writer.gen
    · simp [fsFind_flushTo, hgw]
    · simpa [fsFind_flushTo, hgw, fsHasGen] using hg
  constructor
  · intro hthr
    have hcnt : evictCount cfg st.loader.inner.vec_gen.length =
        st.loader.inner.vec_gen.length / 2 := by
      simp [evictCount, hthr]
    rw [hcnt] at hsw hfind
    refine ⟨_, hsw, by simp, ?_, ?_⟩
    · intro g hg
      simp [SysState.load, fsHasGen, hfind g, hg]
    · intro g hg
      have hdisj : g ∉ st.loader.inner.vec_gen.take
          (st.loader.inner.vec_gen.length / 2) := by
        have := hnd
        rw [← List.take_append_drop (st.loader.inner.vec_gen.length / 2)
          st.loader.inner.vec_gen, List.nodup_append] at this
        exact fun hmem => this.2.2 hmem hg
      have hmem : g ∈ st.loader.inner.vec_gen := List.drop_subset _ _ hg
      simp [SysState.load, fsHasGen, hfind g, hdisj, hflush g (hex g hmem)]
  · intro hthr
    have hcnt : evictCount cfg st.loader.inner.vec_gen.length = 0 := by
      simp [evictCount]
      omega
    rw [hcnt] at hsw hfind
    simp only [List.drop_zero, List.take_zero] at hsw hfind
    refine ⟨_, hsw, by simp, ?_, ?_⟩
    · intro g hg
      simp [SysState.load, fsHasGen, hfind g, hflush g (hex g hg)]
    · intro g hg
      simpa [fsHasGen, hfind g] using hflush g hg

/-- Witness for C4: three retained generations, threshold two, so one
generation is evicted at the rotation. -/
theorem switch_retention_witness :
    (Config.mk 2).wal_threshold ≤
        (SysState.mk [(1, [data1]), (2, [data2]), (3, [])]
          ⟨⟨3, ⟨3, []⟩, [1, 2, 3]⟩, false⟩).loader.inner.vec_gen.length ∧
    ∃ st2,
      (SysState.mk [(1, [data1]), (2, [data2]), (3, [])]
          ⟨⟨3, ⟨3, []⟩, [1, 2, 3]⟩, false⟩).switch ⟨2⟩ 7 = .ok (st2, 3) ∧
      st2.loader.inner.vec_gen = [2, 3, 7] ∧
      st2.load 1 = none ∧ (st2.load 2).isSome = true ∧ (st2.load 3).isSome = true := by
  have h := (switch_retention
    (SysState.mk [(1, [data1]), (2, [data2]), (3, [])] ⟨⟨3, ⟨3, []⟩, [1, 2, 3]⟩, false⟩)
    ⟨2⟩ 7 (by decide) (by decide)).1 (by decide)
  obtain ⟨st2, hsw, hvec, hdead, hlive⟩ := h
  exact ⟨by decide, st2, hsw, by simpa using hvec,
    hdead 1 (by decide), hlive 2 (by decide), hlive 3 (by decide)⟩

/-! ## C5 -/

/-- C5: at every switch from a well-formed state (live list sorted
ascending, ending in the retiring generation, active writer bound to it),
the evicted generations never include the generation being retired by this
call nor the newly allocated one: both end up in the rotated live list and
the retired generation's file survives on disk; in particular, when the
live list has fewer than two entries nothing is evicted at all. -/
theorem switch_spares_active (st : SysState) (cfg : Config) (next_gen : Int)
    (hsorted : st.loader.inner.vec_gen.Sorted (· < ·))
    (hlast : st.loader.inner.vec_gen ≠ [] →
      st.loader.inner.vec_gen.getLast? = some st.loader.inner.current_gen)
    (hwgen : st.loader.inner.writer.gen = st.loader.inner.current_gen)
    (hex : ∀ g ∈ st.loader.inner.vec_gen.take (st.loader.inner.vec_gen.length / 2),
        fsHasGen st.fs g = true) :
    ∃ st2, st.switch cfg next_gen = .ok (st2, st.loader.inner.current_gen) ∧
      next_gen ∈ st2.loader.inner.vec_gen ∧
      (st.loader.inner.vec_gen ≠ [] →
        st.loader.inner.current_gen ∈ st2.loader.inner.vec_gen) ∧
      fsHasGen st2.fs st.loader.inner.current_gen = true ∧
      (st.loader.inner.vec_gen.length < 2 →
        st2.loader.inner.vec_gen = st.loader.inner.vec_gen ++ [next_gen] ∧
        ∀ g, fsHasGen st.fs g = true → fsHasGen st2.fs g = true) := by
  have hnd : st.loader.inner.vec_gen.Nodup := hsorted.imp ne_of_lt
  obtain ⟨fs2, hsw, hfind⟩ := switch_spec st cfg next_gen
    (hnd.sublist (List.take_sublist _ _)) (fun g hg => Or.inr (hex g hg))
  have hcnt_le := evictCount_le_half cfg st.loader.inner.vec_gen.length
  have hcur_notin : st.loader.inner.current_gen ∉
      st.loader.inner.vec_gen.take (evictCount cfg st.loader.inner.vec_gen.length) := by
    intro hmem
    have hne : st.loader.inner.vec_gen ≠ [] := by
      intro h0
      rw [h0] at hmem
      simp at hmem
    have hlen : 1 ≤ st.loader.inner.vec_gen.length := by
      cases hv : st.loader.inner.vec_gen with
      | nil => exact absurd hv hne
      | cons a l => simp [hv]
    -- the current generation sits at the very end, past the evicted prefix
    have hdrop_ne : st.loader.inner.vec_gen.drop
        (evictCount cfg st.loader.inner.vec_gen.length) ≠ [] := by
      intro h0
      rw [List.drop_eq_nil_iff] at h0
      omega
    have hlast2 : (st.loader.inner.vec_gen.drop
        (evictCount cfg st.loader.inner.vec_gen.length)).getLast? =
        some st.loader.inner.current_gen := by
      have := hlast hne
      rwa [← List.take_append_drop (evictCount cfg st.loader.inner.vec_gen.length)
        st.loader.inner.vec_gen, List.getLast?_append_of_ne_nil _ hdrop_ne] at this
    have hmem2 : st.loader.inner.current_gen ∈ st.loader.inner.vec_gen.drop
        (evictCount cfg st.loader.inner.vec_gen.length) :=
      List.mem_of_mem_getLast? hlast2
    have := hnd
    rw [← List.take_append_drop (evictCount cfg st.loader.inner.vec_gen.length)
      st.loader.inner.vec_gen, List.nodup_append] at this
    exact this.2.2 hmem hmem2
  refine ⟨_, hsw, by simp, ?_, ?_, ?_⟩
  · intro hne
    have hdrop_ne : st.loader.inner.vec_gen.drop
        (evictCount cfg st.loader.inner.vec_gen.length) ≠ [] := by
      intro h0
      rw [List.drop_eq_nil_iff] at h0
      have hlen : 1 ≤ st.loader.inner.vec_gen.length := by
        cases hv : st.loader.inner.vec_gen with
        | nil => exact absurd hv hne
        | cons a l => simp [hv]
      omega
    have hlast2 : (st.loader.inner.vec_gen.drop
        (evictCount cfg st.loader.inner.vec_gen.length)).getLast? =
        some st.loader.inner.current_gen := by
      have := hlast hne
      rwa [← List.take_append_drop (evictCount cfg st.loader.inner.vec_gen.length)
        st.loader.inner.vec_gen, List.getLast?_append_of_ne_nil _ hdrop_ne] at this
    simp only [List.mem_append]
    exact Or.inl (List.mem_of_mem_getLast? hlast2)
  · rw [fsHasGen, hfind, if_neg hcur_notin, fsFind_flushTo, hwgen, if_pos rfl]
    rfl
  · intro hlen
    have hcnt : evictCount cfg st.loader.inner.vec_gen.length = 0 := by
      have := evictCount_le_half cfg st.loader.inner.vec_gen.length
      omega
    rw [hcnt] at hfind
    constructor
    · simp [hcnt]
    · intro g hg
      by_cases hgw : g = st.loader.inner.writer.gen
      · subst hgw
        simp [fsHasGen, hfind, fsFind_flushTo]
      · simpa [fsHasGen, hfind, fsFind_flushTo, hgw] using hg

/-- Witness for C5: a two-element live list with threshold zero; the
retiring generation 3 and fresh generation 7 both survive rotation. -/
theorem switch_spares_active_witness :
    ∃ st2,
      (SysState.mk [(2, [data2]), (3, [data1])]
          ⟨⟨3, ⟨3, []⟩, [2, 3]⟩, false⟩).switch ⟨0⟩ 7 = .ok (st2, 3) ∧
      (7 : Int) ∈ st2.loader.inner.vec_gen ∧
      (3 : Int) ∈ st2.loader.inner.vec_gen ∧
      fsHasGen st2.fs 3 = true := by
  obtain ⟨st2, hsw, hnext, hcur, hfile, _⟩ := switch_spares_active
    (SysState.mk [(2, [data2]), (3, [data1])] ⟨⟨3, ⟨3, []⟩, [2, 3]⟩, false⟩)
    ⟨0⟩ 7 (by decide) (fun _ => by decide) (by decide) (by decide)
  exact ⟨st2, hsw, hnext, hcur (by decide), hfile⟩

/-! ## Switch result shape and sortedness preservation -/

theorem evictLoop_drop (n : Nat) :
    ∀ (fs : FS) (vec : List Int) (fs1 : FS) (vec1 : List Int),
      evictLoop fs vec n = .ok (fs1, vec1) → vec1 = vec.drop n := by
  induction n with
  | zero =>
    intro fs vec fs1 vec1 h
    simp only [evictLoop] at h
    injection h with h1
    exact (congrArg Prod.snd h1).symm
  | succ n ih =>
    intro fs vec fs1 vec1 h
    match vec with
    | [] =>
      have := ih fs [] fs1 vec1 (by simpa [evictLoop] using h)
      simpa using this
    | g :: rest =>
      simp only [evictLoop] at h
      cases hcl : fsClean fs g with
      | ok fs2 =>
        rw [hcl] at h
        exact ih fs2 rest fs1 vec1 h
      | error e =>
        rw [hcl] at h
        cases h

theorem switch_ok_shape (st : SysState) (cfg : Config) (next_gen : Int)
    (st2 : SysState) (r : Int)
    (h : st.switch cfg next_gen = .ok (st2, r)) :
    r = st.loader.inner.current_gen ∧
    st2.loader.inner.current_gen = next_gen ∧
    st2.loader.inner.writer = ⟨next_gen, []⟩ ∧
    ∃ k, st2.loader.inner.vec_gen = st.loader.inner.vec_gen.drop k ++ [next_gen] := by
  simp only [SysState.switch] at h
  split at h
  · cases h
  · rename_i fs2 vec2 heq
    have h1 : st2 = ⟨fs2, { st.loader with
        inner := ⟨next_gen, ⟨next_gen, []⟩, vec2 ++ [next_gen]⟩ }⟩ ∧
        r = st.loader.inner.current_gen := by
      have := h
      injection this with h2
      exact ⟨(congrArg Prod.fst h2).symm, (congrArg Prod.snd h2).symm⟩
    obtain ⟨hst2, hr⟩ := h1
    subst hst2
    refine ⟨hr, rfl, rfl, ?_⟩
    split at heq
    · exact ⟨st.loader.inner.vec_gen.length / 2, by
        rw [evictLoop_drop _ _ _ _ _ heq]⟩
    · refine ⟨0, ?_⟩
      injection heq with h3
      have h4 : st.loader.inner.vec_gen = vec2 := congrArg Prod.snd h3
      simp [← h4]

theorem step_sorted (cfg : Config) (st : SysState) (op : Op) (st1 : SysState)
    (hs : st.loader.inner.vec_gen.Sorted (· < ·))
    (hf : freshOk st op = true)
    (hstep : step cfg st op = .ok st1) :
    st1.loader.inner.vec_gen.Sorted (· < ·) := by
  cases op with
  | switchOp g =>
    simp only [step, Except.map] at hstep
    cases hsw : st.switch cfg g with
    | ok p =>
      rw [hsw] at hstep
      obtain ⟨p1, p2⟩ := p
      simp only [] at hstep
      injection hstep with hst1
      obtain ⟨-, -, -, k, hvec⟩ := switch_ok_shape st cfg g p1 p2 hsw
      rw [← hst1, hvec, List.Sorted, List.pairwise_append]
      refine ⟨(hs.sublist (List.drop_sublist k _) : _), List.pairwise_singleton _ _, ?_⟩
      intro a ha b hb
      rw [List.mem_singleton] at hb
      subst hb
      have hall : ∀ x ∈ st.loader.inner.vec_gen, decide (x < b) = true :=
        List.all_eq_true.mp (by simpa [freshOk] using hf)
      have := hall a (List.drop_subset _ _ ha)
      exact of_decide_eq_true this
    | error e =>
      rw [hsw] at hstep
      cases hstep
  | logOp c =>
    injection hstep with h1
    rw [← h1]
    simpa [LogLoader.log] using hs
  | logBatchOp cs =>
    injection hstep with h1
    rw [← h1]
    simpa [LogLoader.log_batch] using hs
  | flushOp =>
    injection hstep with h1
    rw [← h1]
    simpa [SysState.flush] using hs
  | loadOp g =>
    injection hstep with h1
    rw [← h1]
    exact hs
  | loadLastOp =>
    injection hstep with h1
    rw [← h1]
    exact hs
  | lastGenOp =>
    injection hstep with h1
    rw [← h1]
    exact hs

theorem run_sorted_aux (cfg : Config) (ops : List Op) :
    ∀ st st1, st.loader.inner.vec_gen.Sorted (· < ·) →
      freshRun cfg st ops = true → run cfg st ops = .ok st1 →
      st1.loader.inner.vec_gen.Sorted (· < ·) := by
  induction ops with
  | nil =>
    intro st st1 hs _ hrun
    simp only [run] at hrun
    injection hrun with h1
    rw [← h1]
    exact hs
  | cons op rest ih =>
    intro st st1 hs hf hrun
    rw [run] at hrun
    cases hstep : step cfg st op with
    | ok stm =>
      rw [hstep] at hrun
      rw [freshRun, hstep] at hf
      rw [Bool.and_eq_true] at hf
      exact ih stm st1 (step_sorted cfg st op stm hs hf.1 hstep) hf.2 hrun
    | error e =>
      rw [hstep] at hrun
      cases hrun

theorem run_last_switch (cfg : Config) (ops : List Op) (st st1 : SysState) (g : Int)
    (hrun : run cfg st ops = .ok st1)
    (hlast : ops.getLast? = some (Op.switchOp g)) :
    st1.loader.inner.vec_gen.getLast? = some st1.loader.inner.writer.gen := by
  have hne : ops ≠ [] := by
    intro h0
    rw [h0] at hlast
    cases hlast
  have hdecomp : ops.dropLast ++ [Op.switchOp g] = ops := by
    have h1 := List.dropLast_append_getLast hne
    have h2 : ops.getLast hne = Op.switchOp g :=
      Option.some.inj ((List.getLast?_eq_getLast ops hne).symm.trans hlast)
    rw [h2] at h1
    exact h1
  rw [← hdecomp, run_split] at hrun
  cases hmid : run cfg st ops.dropLast with
  | ok stm =>
    rw [hmid] at hrun
    simp only [run] at hrun
    cases hstep : step cfg stm (Op.switchOp g) with
    | ok stf =>
      rw [hstep] at hrun
      injection hrun with h1
      simp only [step, Except.map] at hstep
      cases hsw : stm.switch cfg g with
      | ok p =>
        rw [hsw] at hstep
        obtain ⟨p1, p2⟩ := p
        simp only [] at hstep
        injection hstep with h2
        obtain ⟨-, -, hw, k, hvec⟩ := switch_ok_shape stm cfg g p1 p2 hsw
        rw [← h1, ← h2, hvec, hw, List.getLast?_concat]
      | error e =>
        rw [hsw] at hstep
        cases hstep
    | error e =>
      rw [hstep] at hrun
      cases hrun
  | error e =>
    rw [hmid] at hrun
    cases hrun

/-! ## C6 -/

/-- C6: under the precondition that the generation sequencer only produces
identifiers strictly greater than every generation already present in the
live list, every state reached from a reload of a well-formed directory by
a sequence of operations has its live-generation list sorted strictly
ascending, and whenever the run ends in a successful switch, the list's
last element equals the active writer's generation. -/
theorem reachable_sorted_last (cfg : Config) (fs0 : FS) (ops : List Op) (st1 : SysState)
    (hwf : FSwf fs0)
    (hfresh : freshRun cfg (reloadState fs0) ops = true)
    (hrun : run cfg (reloadState fs0) ops = .ok st1) :
    st1.loader.inner.vec_gen.Sorted (· < ·) ∧
    (∀ g, ops.getLast? = some (Op.switchOp g) →
      st1.loader.inner.vec_gen.getLast? = some st1.loader.inner.writer.gen) := by
  have hs0 : (reloadState fs0).loader.inner.vec_gen.Sorted (· < ·) := by
    have hperm := List.perm_insertionSort (α := Int) (· ≤ ·) (fsKeys fs0)
    have hnd : (List.insertionSort (· ≤ ·) (fsKeys fs0)).Nodup :=
      hperm.nodup_iff.mpr hwf
    have hsle : (List.insertionSort (· ≤ ·) (fsKeys fs0)).Sorted (· ≤ ·) :=
      List.sorted_insertionSort _ _
    simpa [reloadState, LogLoader.reload, LogLoader.reload_, sorted_gen_list] using
      hsle.lt_of_le hnd
  exact ⟨run_sorted_aux cfg ops _ st1 hs0 hfresh hrun,
    fun g hg => run_last_switch cfg ops _ st1 g hrun hg⟩

/-- Witness for C6 on a concrete run: directory with generations 1 and 2,
an append, a flush and a switch to generation 5. -/
theorem reachable_sorted_last_witness :
    (SysState.mk [(2, [data2, data1])]
      ⟨⟨5, ⟨5, []⟩, [2, 5]⟩, false⟩).loader.inner.vec_gen.Sorted (· < ·) ∧
    (SysState.mk [(2, [data2, data1])]
      ⟨⟨5, ⟨5, []⟩, [2, 5]⟩, false⟩).loader.inner.vec_gen.getLast? =
      some (SysState.mk [(2, [data2, data1])]
        ⟨⟨5, ⟨5, []⟩, [2, 5]⟩, false⟩).loader.inner.writer.gen := by
  obtain ⟨h1, h2⟩ := reachable_sorted_last ⟨0⟩ [(2, [data2]), (1, [data1])]
    [Op.logOp data1, Op.flushOp, Op.switchOp 5]
    ⟨[(2, [data2, data1])], ⟨⟨5, ⟨5, []⟩, [2, 5]⟩, false⟩⟩
    (show (fsKeys [(2, [data2]), (1, [data1])]).Nodup by decide)
    (by decide) (by rfl)
  exact ⟨h1, h2 5 (by decide)⟩

/-! ## C7 -/

/-- Sample loaded state used in concrete instantiations. -/
def sampleState : SysState :=
  ⟨[(0, [data1])], ⟨⟨0, ⟨0, []⟩, [0]⟩, false⟩⟩

/-- C7: load returns None exactly when the generation's file does not
exist, and otherwise returns Some of the full ordered command sequence
decoded from the segment; load_last returns None when the live-generation
list is empty, and otherwise equals load applied to the list's most recent
generation. -/
theorem load_contract (st : SysState) (g : Int) :
    (st.load g = none ↔ fsHasGen st.fs g = false) ∧
    (fsHasGen st.fs g = true → st.load g = some (fsRead st.fs g)) ∧
    (st.loader.inner.vec_gen = [] → st.load_last = none) ∧
    (∀ gl, st.loader.inner.vec_gen.getLast? = some gl →
      st.load_last = st.load gl) := by
  refine ⟨?_, ?_, ?_, ?_⟩
  · by_cases h : fsHasGen st.fs g <;> simp [SysState.load, h]
  · intro h
    simp [SysState.load, h]
  · intro h
    simp [SysState.load_last, LogLoader.last_gen, h]
  · intro gl h
    simp [SysState.load_last, LogLoader.last_gen, h]

/-- Witness for C7: an existing generation 0 is loaded in full, and
load_last follows the live list's most recent generation. -/
theorem load_contract_witness :
    sampleState.load 0 = some [data1] ∧
    sampleState.load_last = sampleState.load 0 :=
  ⟨(load_contract sampleState 0).2.1 (by decide),
   (load_contract sampleState 0).2.2.2 0 (by decide)⟩

/-! ## C8 -/

/-- C8: on final release, a loader constructed via checked reload deletes
the recovery-marker generation's file, a failure of that deletion (the
marker being absent) is swallowed rather than propagated, and a loader
constructed via plain reload never touches the marker on teardown;
checked reload is what marks a loader clean-shutdown eligible. -/
theorem teardown_marker (st : SysState) (fs : FS) :
    (st.loader.check_success = true →
      st.dropLoader = fsRemove st.fs SUCCESS_FS_GEN) ∧
    (st.loader.check_success = true → fsHasGen st.fs SUCCESS_FS_GEN = false →
      st.dropLoader = st.fs) ∧
    (st.loader.check_success = false → st.dropLoader = st.fs) ∧
    (∀ ld fs1 r, LogLoader.reload_with_check fs = .ok (ld, fs1, r) →
      ld.check_success = true) ∧
    (LogLoader.reload fs).check_success = false := by
  refine ⟨?_, ?_, ?_, ?_, rfl⟩
  · intro h
    by_cases hm : fsHasGen st.fs SUCCESS_FS_GEN
    · simp [SysState.dropLoader, h, fsClean, hm]
    · simp only [Bool.not_eq_true] at hm
      simp [SysState.dropLoader, h, fsClean, hm, fsRemove_of_not_has st.fs _ hm]
  · intro h hm
    simp [SysState.dropLoader, h, fsClean, hm]
  · intro h
    simp [SysState.dropLoader, h]
  · intro ld fs1 r h
    simp only [LogLoader.reload_with_check] at h
    split at h
    · injection h with h1
      have h2 : ({ (LogLoader.reload_ fs).1 with check_success := true } : LogLoader) = ld :=
        congrArg Prod.fst h1
      rw [← h2]
    · cases h

/-- Witness for C8: teardown of a checked loader removes the marker file;
a plain-reload loader leaves the directory untouched. -/
theorem teardown_marker_witness :
    SysState.dropLoader ⟨[(0, [data1])], ⟨⟨0, ⟨0, []⟩, [0]⟩, true⟩⟩ =
      fsRemove [(0, [data1])] SUCCESS_FS_GEN ∧
    SysState.dropLoader sampleState = sampleState.fs ∧
    (LogLoader.reload [(0, [data1])]).check_success = false :=
  ⟨(teardown_marker ⟨[(0, [data1])], ⟨⟨0, ⟨0, []⟩, [0]⟩, true⟩⟩ [(0, [data1])]).1 rfl,
   (teardown_marker sampleState [(0, [data1])]).2.2.1 rfl,
   (teardown_marker sampleState [(0, [data1])]).2.2.2.2⟩

/-! ## C9 -/

/-- C9: every operation other than switch (log, log_batch, flush, load,
load_last, last_gen) leaves the active generation field and the
live-generation list unchanged; switch is the only operation that can
modify them after construction. -/
theorem step_frame (cfg : Config) (st : SysState) (op : Op) (st1 : SysState)
    (hop : ∀ g, op ≠ Op.switchOp g)
    (hstep : step cfg st op = .ok st1) :
    st1.loader.inner.current_gen = st.loader.inner.current_gen ∧
    st1.loader.inner.vec_gen = st.loader.inner.vec_gen := by
  cases op with
  | switchOp g => exact absurd rfl (hop g)
  | logOp c =>
    injection hstep with h1
    rw [← h1]
    exact ⟨rfl, rfl⟩
  | logBatchOp cs =>
    injection hstep with h1
    rw [← h1]
    exact ⟨rfl, rfl⟩
  | flushOp =>
    injection hstep with h1
    rw [← h1]
    exact ⟨rfl, rfl⟩
  | loadOp g =>
    injection hstep with h1
    rw [← h1]
    exact ⟨rfl, rfl⟩
  | loadLastOp =>
    injection hstep with h1
    rw [← h1]
    exact ⟨rfl, rfl⟩
  | lastGenOp =>
    injection hstep with h1
    rw [← h1]
    exact ⟨rfl, rfl⟩

/-- Witness for C9: a flush leaves the active generation and the live list
unchanged. -/
theorem step_frame_witness :
    (SysState.flush sampleState).loader.inner.current_gen =
      sampleState.loader.inner.current_gen ∧
    (SysState.flush sampleState).loader.inner.vec_gen =
      sampleState.loader.inner.vec_gen :=
  step_frame ⟨0⟩ sampleState Op.flushOp (SysState.flush sampleState)
    (fun _ h => Op.noConfusion h) rfl

/-! ## C10 -/

/-- Operation lists containing no switch. -/
def noSwitch (ops : List Op) : Bool :=
  ops.all fun op =>
    match op with
    | .switchOp _ => false
    | _ => true

theorem run_noSwitch_aux (cfg : Config) (ops : List Op) :
    ∀ st st1, noSwitch ops = true → run cfg st ops = .ok st1 →
      st1.loader.inner.current_gen = st.loader.inner.current_gen ∧
      st1.loader.inner.writer.gen = st.loader.inner.writer.gen ∧
      st1.loader.inner.vec_gen = st.loader.inner.vec_gen ∧
      ∀ g, g ≠ st.loader.inner.writer.gen → fsFind st1.fs g = fsFind st.fs g := by
  induction ops with
  | nil =>
    intro st st1 _ hrun
    simp only [run] at hrun
    injection hrun with h1
    rw [← h1]
    exact ⟨rfl, rfl, rfl, fun g _ => rfl⟩
  | cons op rest ih =>
    intro st st1 hns hrun
    rw [run] at hrun
    cases op with
    | switchOp _ => simp [noSwitch] at hns
    | logOp c =>
      exact ih ⟨st.fs, st.loader.log c⟩ st1 (by simpa [noSwitch] using hns) hrun
    | logBatchOp cs =>
      exact ih ⟨st.fs, st.loader.log_batch cs⟩ st1 (by simpa [noSwitch] using hns) hrun
    | flushOp =>
      obtain ⟨h1, h2, h3, h4⟩ := ih (SysState.flush st) st1
        (by simpa [noSwitch] using hns) hrun
      refine ⟨h1, h2, h3, ?_⟩
      intro g hg
      rw [h4 g hg]
      simp only [SysState.flush]
      rw [fsFind_flushTo]
      exact if_neg hg
    | loadOp g =>
      exact ih st st1 (by simpa [noSwitch] using hns) hrun
    | loadLastOp =>
      exact ih st st1 (by simpa [noSwitch] using hns) hrun
    | lastGenOp =>
      exact ih st st1 (by simpa [noSwitch] using hns) hrun

/-- C10: over a directory containing no existing log segments, a loader
produced by reload or checked reload has active generation 0, which is the
reserved marker generation SUCCESS_FS_GEN, and last_gen returns None; all
appends and flushes performed before the first switch touch only the
marker's generation slot, and the first switch on such a loader returns 0. -/
theorem fresh_dir_gen_zero (cfg : Config) :
    (reloadState []).loader.inner.current_gen = SUCCESS_FS_GEN ∧
    SUCCESS_FS_GEN = 0 ∧
    (reloadState []).loader.inner.writer.gen = SUCCESS_FS_GEN ∧
    (reloadState []).loader.last_gen = none ∧
    (∀ ld fs1 r, LogLoader.reload_with_check [] = .ok (ld, fs1, r) →
      ld.inner.current_gen = SUCCESS_FS_GEN ∧ ld.last_gen = none) ∧
    (∀ ops st1, noSwitch ops = true → run cfg (reloadState []) ops = .ok st1 →
      st1.loader.inner.writer.gen = SUCCESS_FS_GEN ∧
      (∀ g, g ≠ SUCCESS_FS_GEN → fsFind st1.fs g = none) ∧
      ∀ next_gen, ∃ st2, st1.switch cfg next_gen = .ok (st2, 0)) := by
  refine ⟨rfl, rfl, rfl, rfl, ?_, ?_⟩
  · intro ld fs1 r h
    have hcomp : LogLoader.reload_with_check [] =
        .ok (⟨⟨0, ⟨0, []⟩, []⟩, true⟩, [(SUCCESS_FS_GEN, [])], none) := rfl
    rw [hcomp] at h
    injection h with h1
    have h2 : (⟨⟨0, ⟨0, []⟩, []⟩, true⟩ : LogLoader) = ld := congrArg Prod.fst h1
    rw [← h2]
    exact ⟨rfl, rfl⟩
  · intro ops st1 hns hrun
    obtain ⟨h1, h2, h3, h4⟩ := run_noSwitch_aux cfg ops (reloadState []) st1 hns hrun
    have hvec : st1.loader.inner.vec_gen = [] := h3
    refine ⟨h2, ?_, ?_⟩
    · intro g hg
      exact h4 g hg
    · intro next_gen
      obtain ⟨fs2, hsw, -⟩ := switch_spec st1 cfg next_gen
        (by rw [hvec]; simp) (by rw [hvec]; simp)
      refine ⟨⟨fs2, { st1.loader with inner := ⟨next_gen, ⟨next_gen, []⟩,
        st1.loader.inner.vec_gen.drop (evictCount cfg st1.loader.inner.vec_gen.length)
          ++ [next_gen]⟩ }⟩, ?_⟩
      rw [hsw, show st1.loader.inner.current_gen = (0 : Int) from h1]

/-- Witness for C10: reloading an empty directory, appending and flushing,
then performing the first switch, which returns generation 0. -/
theorem fresh_dir_gen_zero_witness :
    (reloadState []).loader.inner.current_gen = SUCCESS_FS_GEN ∧
    (reloadState []).loader.last_gen = none ∧
    ∃ st1, run ⟨0⟩ (reloadState []) [Op.logOp data1, Op.flushOp] = .ok st1 ∧
      st1.loader.inner.writer.gen = SUCCESS_FS_GEN ∧
      ∃ st2, st1.switch ⟨0⟩ 1 = .ok (st2, 0) := by
  obtain ⟨hc, -, -, hl, -, hrunpart⟩ := fresh_dir_gen_zero ⟨0⟩
  cases hrun : run ⟨0⟩ (reloadState []) [Op.logOp data1, Op.flushOp] with
  | ok st1 =>
    obtain ⟨hw, -, hsw⟩ := hrunpart [Op.logOp data1, Op.flushOp] st1 (by decide) hrun
    exact ⟨hc, hl, st1, rfl, hw, hsw 1⟩
  | error e => cases hrun

end KipDB
